import Mathlib

/-!
Verification of the extraction-and-deduplication logic of the mcp.so
exporter script (scripts/export-mcp-so.py).

The script drives a browser, scrapes listing pages into record
dictionaries, deduplicates them by an identity key, and persists the
result.  The browser automation and HTML parsing library are external;
we embed the logic of the script itself: the per-anchor record
construction (href selection, URL derivation, slug/author derivation,
container enrichment), the embedded-JSON merging, the deduplication
pass, and the top-level interrupt/error handling of main().
-/

/-- A scraped record: a Python dict with optional string-valued fields
(name, url, description, author, installCommand, slug, authorFromUrl).
An absent field models a key missing from the dict. -/
structure Record where
  name : Option String
  url : Option String
  description : Option String
  author : Option String
  installCommand : Option String
  slug : Option String
  authorFromUrl : Option String
deriving DecidableEq, Repr

/-- Record with only name and url fields, as built before enrichment. -/
def mkRec (n u : Option String) : Record :=
  ⟨n, u, none, none, none, none, none⟩

/-- The identity key of the source, line 113/182:
`server.get('url', server.get('name', ''))` — the url value if the url
key is present (whatever the value), else the name value if present,
else the empty string. -/
def dedupKey (r : Record) : String :=
  r.url.getD (r.name.getD "")

/-- Python truthiness of an optional string field: present and non-empty. -/
def truthyStr : Option String → Bool
  | some s => s != ""
  | none => false

/-- The identity key as the spec words it: url if present and truthy,
else name if present and truthy, else the empty string. -/
def specKey (r : Record) : String :=
  if truthyStr r.url then r.url.getD ""
  else if truthyStr r.name then r.name.getD ""
  else ""

/-- Deduplication loop of the source (lines 110-116 and 178-185):
walk the list keeping a seen-set of keys; keep a record only when its
key is truthy (non-empty) and not yet seen, then mark it seen. -/
def dedupeAux (seen : List String) : List Record → List Record
  | [] => []
  | r :: rs =>
    if dedupKey r ≠ "" ∧ dedupKey r ∉ seen then
      r :: dedupeAux (dedupKey r :: seen) rs
    else
      dedupeAux seen rs

/-- The deduplication pass, applied per page in
extract_servers_from_page and again in save_data. -/
def dedupe (recs : List Record) : List Record :=
  dedupeAux [] recs

/-- Declarative deduplication as the spec words it, generic in the key
function: keep a record exactly when its key is non-empty and did not
occur as the key of any earlier record of the input. -/
def declDedupeAux (key : Record → String) (prior : List Record) : List Record → List Record
  | [] => []
  | r :: rs =>
    if key r ≠ "" ∧ ∀ p ∈ prior, key p ≠ key r then
      r :: declDedupeAux key (prior ++ [r]) rs
    else
      declDedupeAux key (prior ++ [r]) rs

/-- Declarative deduplication, starting from an empty history. -/
def declDedupe (key : Record → String) (recs : List Record) : List Record :=
  declDedupeAux key [] recs

/-- Python substring test over character lists: the second list occurs
contiguously inside the first. -/
def hasSegChars : List Char → List Char → Bool
  | [], sub => sub.isEmpty
  | c :: rest, sub => (c :: rest).take sub.length == sub || hasSegChars rest sub

/-- Python `sub in s` on strings. -/
def pyContains (s sub : String) : Bool :=
  hasSegChars s.toList sub.toList

/-- Prefix test over character lists. -/
def startsChars : List Char → List Char → Bool
  | _, [] => true
  | [], _ :: _ => false
  | c :: cs, p :: ps => c == p && startsChars cs ps

/-- Python `s.startswith(pre)`. -/
def pyStartsWith (s pre : String) : Bool :=
  startsChars s.toList pre.toList

/-- Python `s.strip('/')`: drop leading and trailing slash characters. -/
def pyStripSlash (s : String) : String :=
  String.mk (((s.toList.dropWhile (· = '/')).reverse.dropWhile (· = '/')).reverse)

/-- Python `s.split('/')` on character lists, with the accumulator
holding the reversed current token. -/
def splitSlashAux : List Char → List Char → List String
  | [], acc => [String.mk acc.reverse]
  | x :: xs, acc =>
    if x = '/' then String.mk acc.reverse :: splitSlashAux xs []
    else splitSlashAux xs (x :: acc)

/-- Line 90 of the source: `url_parts = href.strip('/').split('/')`. -/
def urlParts (href : String) : List String :=
  splitSlashAux (pyStripSlash href).toList []

/-- Lines 91-93 of the source: when the stripped href splits into at
least three parts, slug is `url_parts[-2]` and authorFromUrl is
`url_parts[-1]`; otherwise neither field is set. -/
def slugAuthorOf (href : String) : Option (String × String) :=
  let parts := urlParts href
  if h : 3 ≤ parts.length then
    some (parts.get ⟨parts.length - 2, by omega⟩, parts.get ⟨parts.length - 1, by omega⟩)
  else
    none

/-- The hardcoded site origin prepended to relative hrefs (line 67). -/
def siteOrigin : String := "https://mcp.so"

/-- Line 67 of the source: the url field is
`f"https://mcp.so{href}" if not href.startswith('http') else href`. -/
def deriveUrl (href : String) : String :=
  if pyStartsWith href "http" then href else siteOrigin ++ href

/-- The package-manager substrings looked for in code blocks (line 85). -/
def installCmds : List String := ["npx", "npm install", "uvx"]

/-- Lines 82-87: the first code/pre block whose text contains one of
the known install-command substrings. -/
def findInstall (codeTexts : List String) : Option String :=
  codeTexts.find? fun t => installCmds.any fun cmd => pyContains t cmd

/-- The container element found by find_parent (lines 61-63), abstracted
to the three queries the source performs on it: the text of the first
description-classed element, the text of the first author-classed
element, and the texts of its code/pre blocks in document order. -/
structure Container where
  descText : Option String
  authorText : Option String
  codeTexts : List String
deriving DecidableEq, Repr

/-- An anchor element of the page: its href attribute (absent models a
missing attribute), its stripped visible text, and its enclosing
card/item/grid container when one exists. -/
structure Anchor where
  href : Option String
  text : String
  container : Option Container
deriving DecidableEq, Repr

/-- An embedded `__NEXT_DATA__` script block, abstracted to the outcome
of the try-block of lines 100-107: the JSON parse fails, or it parses
and the nested props.pageProps.servers list is present or absent. -/
inductive ScriptBlock where
  | parseFail : ScriptBlock
  | parseOk : Option (List Record) → ScriptBlock
deriving DecidableEq, Repr

/-- A parsed page, as the two query results the source reads from the
soup: all anchor elements, and all `__NEXT_DATA__` script blocks. -/
structure Page where
  anchors : List Anchor
  scripts : List ScriptBlock
deriving DecidableEq, Repr

/-- The anchor selection of line 53:
`soup.find_all('a', href=lambda x: x and '/server/' in x)`. -/
def selectAnchor (a : Anchor) : Bool :=
  match a.href with
  | none => false
  | some h => h != "" && pyContains h "/server/"

/-- The record built for a selected anchor (lines 65-93): name from the
anchor text, url derived from the href, optional description, author
and installCommand from the container, slug and authorFromUrl from the
href path. -/
def baseRecord (a : Anchor) (href : String) : Record :=
  let sa := slugAuthorOf href
  { name := some a.text
    url := some (deriveUrl href)
    description := a.container.bind (·.descText)
    author := a.container.bind (·.authorText)
    installCommand := a.container.bind (fun c => findInstall c.codeTexts)
    slug := sa.map (·.1)
    authorFromUrl := sa.map (·.2) }

/-- Per-anchor record production (lines 55-95): an anchor yields a
record when it passes the href filter and its href is not exactly the
listing root path `/servers`. -/
def anchorRecord (a : Anchor) : Option Record :=
  if selectAnchor a then
    let href := a.href.getD ""
    if href = "/servers" then none else some (baseRecord a href)
  else
    none

/-- All records produced by the anchor scan, in document order. -/
def anchorRecords (anchors : List Anchor) : List Record :=
  anchors.filterMap anchorRecord

/-- The records a script block contributes (lines 100-107): none when
the parse fails or the nested servers key is missing, else the nested
list verbatim. -/
def scriptContribution : ScriptBlock → List Record
  | .parseFail => []
  | .parseOk none => []
  | .parseOk (some ss) => ss

/-- extract_servers_from_page (lines 47-118): anchor-derived records,
then every script block contribution, then the per-page deduplication
pass. -/
def extract_servers_from_page (page : Page) : List Record :=
  dedupe (anchorRecords page.anchors ++ (page.scripts.map scriptContribution).flatten)

/-- save_data (lines 175-190): the list written to the output file is
the deduplicated accumulated list. -/
def save_data (servers : List Record) : List Record :=
  dedupe servers

/-- How a run of the exporter ends, as distinguished by the except
clauses of main (lines 254-272). -/
inductive RunOutcome where
  | completed : RunOutcome
  | interrupted : RunOutcome
  | failed : String → RunOutcome
deriving DecidableEq, Repr

/-- Observable effect of the exception handling of main: the fallback
save performed, if any (filename and written content), and the process
exit status. -/
structure MainResult where
  partialSave : Option (String × List Record)
  exitCode : Nat
deriving DecidableEq, Repr

/-- The default output filename of save_data (line 175). -/
def defaultOutput : String := "mcp-so-servers.json"

/-- The fallback filename used on interrupt (line 268). -/
def partialOutput : String := "mcp-so-partial.json"

/-- The exception handling of main (lines 254-272): a completed run
exits normally; a KeyboardInterrupt saves the accumulated records to
the fallback file when any exist and exits normally; any other
exception prints the error and exits with status 1. -/
def mainHandler (outcome : RunOutcome) (accumulated : List Record) : MainResult :=
  match outcome with
  | .completed => ⟨none, 0⟩
  | .interrupted =>
    if accumulated.isEmpty then ⟨none, 0⟩
    else ⟨some (partialOutput, save_data accumulated), 0⟩
  | .failed _ => ⟨none, 1⟩

/-! ### Properties of the deduplication pass -/

/-- Every record surviving dedupeAux has a non-empty key not in the
initial seen set. -/
theorem dedupeAux_mem : ∀ (rs : List Record) (seen : List String) (r : Record),
    r ∈ dedupeAux seen rs → dedupKey r ≠ "" ∧ dedupKey r ∉ seen := by
  intro rs
  induction rs with
  | nil => intro seen r h; simp [dedupeAux] at h
  | cons p rs ih =>
    intro seen r h
    simp only [dedupeAux] at h
    by_cases hc : dedupKey p ≠ "" ∧ dedupKey p ∉ seen
    · rw [if_pos hc] at h
      rcases List.mem_cons.mp h with rfl | hmem
      · exact hc
      · have h2 := ih _ _ hmem
        exact ⟨h2.1, fun hs => h2.2 (List.mem_cons_of_mem _ hs)⟩
    · rw [if_neg hc] at h
      exact ih _ _ h

/-- The output of dedupeAux is a sublist of its input. -/
theorem dedupeAux_sublist : ∀ (rs : List Record) (seen : List String),
    (dedupeAux seen rs).Sublist rs := by
  intro rs
  induction rs with
  | nil => intro seen; simp [dedupeAux]
  | cons p rs ih =>
    intro seen
    simp only [dedupeAux]
    split
    · exact (ih _).cons₂ p
    · exact (ih _).cons p

/-- No two records in the output of dedupeAux share a key. -/
theorem dedupeAux_pairwise : ∀ (rs : List Record) (seen : List String),
    (dedupeAux seen rs).Pairwise (fun a b => dedupKey a ≠ dedupKey b) := by
  intro rs
  induction rs with
  | nil => intro seen; simp [dedupeAux]
  | cons p rs ih =>
    intro seen
    simp only [dedupeAux]
    split
    · refine List.Pairwise.cons ?_ (ih _)
      intro b hb heq
      have h2 := dedupeAux_mem rs (dedupKey p :: seen) b hb
      exact h2.2 (heq ▸ List.mem_cons_self _ _)
    · exact ih _

/-- A record kept by dedupeAux is the first input record bearing its key. -/
theorem dedupeAux_find : ∀ (rs : List Record) (seen : List String) (r : Record),
    r ∈ dedupeAux seen rs →
    rs.find? (fun p => dedupKey p == dedupKey r) = some r := by
  intro rs
  induction rs with
  | nil => intro seen r h; simp [dedupeAux] at h
  | cons p rs ih =>
    intro seen r h
    simp only [dedupeAux] at h
    by_cases hc : dedupKey p ≠ "" ∧ dedupKey p ∉ seen
    · rw [if_pos hc] at h
      rcases List.mem_cons.mp h with rfl | hmem
      · rw [List.find?_cons_of_pos]
        simp
      · have hm := dedupeAux_mem rs (dedupKey p :: seen) r hmem
        have hne : dedupKey p ≠ dedupKey r :=
          fun heq => hm.2 (heq ▸ List.mem_cons_self _ _)
        rw [List.find?_cons_of_neg]
        · exact ih _ _ hmem
        · simp [hne]
    · rw [if_neg hc] at h
      have hm := dedupeAux_mem rs seen r h
      have hne : dedupKey p ≠ dedupKey r := by
        push_neg at hc
        intro heq
        by_cases hp : dedupKey p = ""
        · exact hm.1 (heq ▸ hp)
        · exact hm.2 (heq ▸ hc hp)
      rw [List.find?_cons_of_neg]
      · exact ih _ _ h
      · simp [hne]

/-- dedupeAux leaves a list untouched when every record has a fresh
non-empty key and the keys are pairwise distinct. -/
theorem dedupeAux_eq_self : ∀ (rs : List Record) (seen : List String),
    (∀ r ∈ rs, dedupKey r ≠ "" ∧ dedupKey r ∉ seen) →
    rs.Pairwise (fun a b => dedupKey a ≠ dedupKey b) →
    dedupeAux seen rs = rs := by
  intro rs
  induction rs with
  | nil => intro seen _ _; simp [dedupeAux]
  | cons p rs ih =>
    intro seen hmem hpw
    have hp := hmem p (List.mem_cons_self _ _)
    rcases List.pairwise_cons.mp hpw with ⟨hhead, htail⟩
    simp only [dedupeAux]
    rw [if_pos hp]
    congr 1
    apply ih
    · intro r hr
      have h1 := hmem r (List.mem_cons_of_mem _ hr)
      refine ⟨h1.1, ?_⟩
      intro hmem2
      rcases List.mem_cons.mp hmem2 with heq | hin
      · exact hhead r hr heq.symm
      · exact h1.2 hin
    · exact htail

/-- The seen-set fold agrees with the declarative earlier-records
formulation whenever the seen set holds exactly the non-empty keys of
the records already walked. -/
theorem dedupeAux_eq_declAux : ∀ (rs : List Record) (seen : List String) (prior : List Record),
    (∀ k, k ∈ seen ↔ (k ≠ "" ∧ ∃ p ∈ prior, dedupKey p = k)) →
    dedupeAux seen rs = declDedupeAux dedupKey prior rs := by
  intro rs
  induction rs with
  | nil => intro seen prior _; simp [dedupeAux, declDedupeAux]
  | cons r rs ih =>
    intro seen prior hinv
    by_cases hkey : dedupKey r = ""
    · have hc1 : ¬(dedupKey r ≠ "" ∧ dedupKey r ∉ seen) := by simp [hkey]
      have hc2 : ¬(dedupKey r ≠ "" ∧ ∀ p ∈ prior, dedupKey p ≠ dedupKey r) := by simp [hkey]
      simp only [dedupeAux, declDedupeAux]
      rw [if_neg hc1, if_neg hc2]
      apply ih
      intro k
      rw [hinv k]
      constructor
      · rintro ⟨hk, p, hp, hpk⟩
        exact ⟨hk, p, List.mem_append_left _ hp, hpk⟩
      · rintro ⟨hk, p, hp, hpk⟩
        rcases List.mem_append.mp hp with h1 | h2
        · exact ⟨hk, p, h1, hpk⟩
        · have hpr : p = r := by simpa using h2
          subst hpr
          exact absurd ((hkey.symm.trans hpk).symm) hk
    · by_cases hseen : dedupKey r ∈ seen
      · have hc1 : ¬(dedupKey r ≠ "" ∧ dedupKey r ∉ seen) := by simp [hseen]
        have hex := (hinv (dedupKey r)).mp hseen
        have hc2 : ¬(dedupKey r ≠ "" ∧ ∀ p ∈ prior, dedupKey p ≠ dedupKey r) := by
          rintro ⟨_, hall⟩
          rcases hex with ⟨_, p, hp, hpk⟩
          exact hall p hp hpk
        simp only [dedupeAux, declDedupeAux]
        rw [if_neg hc1, if_neg hc2]
        apply ih
        intro k
        rw [hinv k]
        constructor
        · rintro ⟨hk, p, hp, hpk⟩
          exact ⟨hk, p, List.mem_append_left _ hp, hpk⟩
        · rintro ⟨hk, p, hp, hpk⟩
          rcases List.mem_append.mp hp with h1 | h2
          · exact ⟨hk, p, h1, hpk⟩
          · have hpr : p = r := by simpa using h2
            subst hpr
            rcases hex with ⟨_, q, hq, hqk⟩
            exact ⟨hk, q, hq, hqk.trans hpk⟩
      · have hall : ∀ p ∈ prior, dedupKey p ≠ dedupKey r := by
          intro p hp heq
          exact hseen ((hinv (dedupKey r)).mpr ⟨hkey, p, hp, heq⟩)
        simp only [dedupeAux, declDedupeAux]
        rw [if_pos ⟨hkey, hseen⟩, if_pos ⟨hkey, hall⟩]
        congr 1
        apply ih
        intro k
        constructor
        · intro hk
          rcases List.mem_cons.mp hk with rfl | hks
          · exact ⟨hkey, r, List.mem_append_right _ (List.mem_singleton.mpr rfl), rfl⟩
          · rcases (hinv k).mp hks with ⟨hk1, p, hp, hpk⟩
            exact ⟨hk1, p, List.mem_append_left _ hp, hpk⟩
        · rintro ⟨hk, p, hp, hpk⟩
          rcases List.mem_append.mp hp with h1 | h2
          · exact List.mem_cons_of_mem _ ((hinv k).mpr ⟨hk, p, h1, hpk⟩)
          · have hpr : p = r := by simpa using h2
            subst hpr
            exact hpk ▸ List.mem_cons_self _ _

/-! ### Claim theorems: deduplication -/

/-- C1 counterexample: the claim computes the identity key with a
truthiness fallback (url if present and truthy, else name), but the
source uses `dict.get`, which falls back only when the url key is
absent.  For a record with a present-but-empty url and a non-empty
name, the source key is the empty string and the record is dropped,
while the claimed behaviour retains it. -/
theorem dedupe_truthy_key_counterexample :
    dedupe [mkRec (some "foo") (some "")] = [] ∧
    declDedupe specKey [mkRec (some "foo") (some "")] = [mkRec (some "foo") (some "")] ∧
    dedupe [mkRec (some "foo") (some "")] ≠
      declDedupe specKey [mkRec (some "foo") (some "")] := by
  decide

/-- C1 amended: dedupe keeps exactly those records whose identity key
is non-empty and did not occur as the key of any earlier record, where
the key is the url value if the url field is present (even when empty),
else the name value if the name field is present, else the empty
string. -/
theorem dedupe_decl_characterization (recs : List Record) :
    dedupe recs = declDedupe dedupKey recs := by
  unfold dedupe declDedupe
  apply dedupeAux_eq_declAux
  intro k
  simp

/-- C3 counterexample: when two records both have the empty identity
key, the source drops every one of them — the first is not retained. -/
theorem dedupe_empty_key_counterexample :
    dedupe [mkRec none none, mkRec none none] = [] ∧
    mkRec none none ∉ dedupe [mkRec none none, mkRec none none] := by
  decide

/-- C3 amended: every record whose identity key is the empty string is
removed by dedupe, including the first such record; no empty-key record
is ever retained. -/
theorem dedupe_drops_empty_keys (recs : List Record) (r : Record)
    (h : r ∈ dedupe recs) : dedupKey r ≠ "" :=
  (dedupeAux_mem recs [] r h).1

/-- Witness for dedupe_drops_empty_keys at a concrete input. -/
theorem dedupe_drops_empty_keys_witness :
    dedupKey (mkRec (some "a") none) ≠ "" :=
  dedupe_drops_empty_keys [mkRec none none, mkRec (some "a") none]
    (mkRec (some "a") none) (by decide)

/-- C4: the output of dedupe is a stable subsequence of the input, no
two output records share an identity key, and each output record is the
first input record bearing its key. -/
theorem dedupe_stable_first_occurrence (recs : List Record) :
    (dedupe recs).Sublist recs ∧
    (dedupe recs).Pairwise (fun a b => dedupKey a ≠ dedupKey b) ∧
    ∀ r ∈ dedupe recs, recs.find? (fun p => dedupKey p == dedupKey r) = some r :=
  ⟨dedupeAux_sublist recs [], dedupeAux_pairwise recs [],
    fun r hr => dedupeAux_find recs [] r hr⟩

/-- Witness for dedupe_stable_first_occurrence: with two records of
equal key, the first input record bearing the key is the one found. -/
theorem dedupe_stable_first_occurrence_witness :
    mkRec (some "A") (some "u1") ∈
      dedupe [mkRec (some "A") (some "u1"), mkRec (some "B") (some "u1")] ∧
    [mkRec (some "A") (some "u1"), mkRec (some "B") (some "u1")].find?
        (fun p => dedupKey p == dedupKey (mkRec (some "A") (some "u1"))) =
      some (mkRec (some "A") (some "u1")) :=
  ⟨by decide,
    (dedupe_stable_first_occurrence
        [mkRec (some "A") (some "u1"), mkRec (some "B") (some "u1")]).2.2
      (mkRec (some "A") (some "u1")) (by decide)⟩

/-- C5: the deduplication pass is idempotent. -/
theorem dedupe_idempotent (recs : List Record) :
    dedupe (dedupe recs) = dedupe recs := by
  unfold dedupe
  apply dedupeAux_eq_self
  · intro r hr
    exact ⟨(dedupeAux_mem recs [] r hr).1, List.not_mem_nil (dedupKey r)⟩
  · exact dedupeAux_pairwise recs []

/-- C9: the per-page extraction already satisfies the deduplication
invariant: no two returned records share an identity key, and no
returned record has an empty identity key. -/
theorem extract_output_deduped (page : Page) :
    (extract_servers_from_page page).Pairwise (fun a b => dedupKey a ≠ dedupKey b) ∧
    ∀ r ∈ extract_servers_from_page page, dedupKey r ≠ "" := by
  unfold extract_servers_from_page dedupe
  exact ⟨dedupeAux_pairwise _ _, fun r hr => (dedupeAux_mem _ _ r hr).1⟩

/-- Witness for extract_output_deduped at a one-anchor page. -/
theorem extract_output_deduped_witness :
    dedupKey (baseRecord ⟨some "/server/acme/tool-a", "Tool A", none⟩
      "/server/acme/tool-a") ≠ "" :=
  (extract_output_deduped ⟨[⟨some "/server/acme/tool-a", "Tool A", none⟩], []⟩).2
    (baseRecord ⟨some "/server/acme/tool-a", "Tool A", none⟩ "/server/acme/tool-a")
    (by decide)

/-! ### Claim theorems: slug and authorFromUrl derivation -/

/-- A list of length at least two is its front followed by its last two
elements. -/
theorem take_append_last_two (l : List String) (h : 2 ≤ l.length) :
    l = l.take (l.length - 2) ++
      [l.get ⟨l.length - 2, by omega⟩, l.get ⟨l.length - 1, by omega⟩] := by
  conv_lhs => rw [← List.take_append_drop (l.length - 2) l]
  congr 1
  have h1 : l.length - 2 < l.length := by omega
  have h2 : l.length - 1 < l.length := by omega
  rw [List.drop_eq_getElem_cons h1]
  have he : l.length - 2 + 1 = l.length - 1 := by omega
  rw [he, List.drop_eq_getElem_cons h2]
  have he2 : l.length - 1 + 1 = l.length := by omega
  rw [he2, List.drop_length]
  simp [List.get_eq_getElem]

/-- Unfolding of slugAuthorOf in the at-least-three-parts case. -/
theorem slugAuthorOf_eq_some {href : String} (h : 3 ≤ (urlParts href).length) :
    slugAuthorOf href =
      some ((urlParts href).get ⟨(urlParts href).length - 2, by omega⟩,
            (urlParts href).get ⟨(urlParts href).length - 1, by omega⟩) := by
  simp only [slugAuthorOf]
  rw [dif_pos h]

/-- C2 counterexample: for href `/server/acme/tool-a` the source sets
slug to the second-to-last segment and authorFromUrl to the last
segment, giving ("acme", "tool-a"), not ("tool-a", "acme") as claimed. -/
theorem slug_author_swap_counterexample :
    slugAuthorOf "/server/acme/tool-a" ≠ some ("tool-a", "acme") ∧
    slugAuthorOf "/server/acme/tool-a" = some ("acme", "tool-a") ∧
    slugAuthorOf "/server/acme/tool-b" = some ("acme", "tool-b") := by
  decide

/-- C2 amended: when the slash-stripped href splits into at least three
segments, slug is the second-to-last segment and authorFromUrl the last
segment (segments taken as split, whether or not empty); with fewer
than three segments neither field is set. -/
theorem slug_author_last_two_segments (href : String) :
    (3 ≤ (urlParts href).length →
      ∃ front s a, urlParts href = front ++ [s, a] ∧
        slugAuthorOf href = some (s, a)) ∧
    ((urlParts href).length < 3 → slugAuthorOf href = none) := by
  constructor
  · intro h3
    refine ⟨(urlParts href).take ((urlParts href).length - 2),
      (urlParts href).get ⟨(urlParts href).length - 2, by omega⟩,
      (urlParts href).get ⟨(urlParts href).length - 1, by omega⟩, ?_, ?_⟩
    · exact take_append_last_two (urlParts href) (by omega)
    · exact slugAuthorOf_eq_some h3
  · intro hlt
    simp only [slugAuthorOf]
    rw [dif_neg (by omega)]

/-- Witness for slug_author_last_two_segments at the example href. -/
theorem slug_author_last_two_segments_witness :
    ∃ front s a, urlParts "/server/acme/tool-a" = front ++ [s, a] ∧
      slugAuthorOf "/server/acme/tool-a" = some (s, a) :=
  (slug_author_last_two_segments "/server/acme/tool-a").1 (by decide)

/-! ### Claim theorems: url derivation -/

/-- A list starting with a prefix also starts with any front part of
that prefix. -/
theorem startsChars_append (p q : List Char) : ∀ l : List Char,
    startsChars l (p ++ q) = true → startsChars l p = true := by
  induction p with
  | nil => intro l _; cases l <;> rfl
  | cons x xs ih =>
    intro l h
    cases l with
    | nil => simp [startsChars] at h
    | cons c cs =>
      simp [startsChars] at h ⊢
      exact ⟨h.1, ih cs h.2⟩

/-- A list starting with a slash does not start with "http". -/
theorem startsChars_slash_not_http {l : List Char}
    (h : startsChars l ['/'] = true) :
    startsChars l ['h', 't', 't', 'p'] = false := by
  cases l with
  | nil => simp [startsChars] at h
  | cons c cs =>
    simp [startsChars] at h
    subst h
    rfl

/-- C6: the derived url is the site origin prefixed to the href when
the href is relative (starts with a slash), and the href verbatim when
it is already an absolute http or https URL. -/
theorem derive_url_origin_rule (href : String) :
    (pyStartsWith href "/" = true → deriveUrl href = siteOrigin ++ href) ∧
    ((pyStartsWith href "http://" = true ∨ pyStartsWith href "https://" = true) →
      deriveUrl href = href) := by
  constructor
  · intro h
    have hf : pyStartsWith href "http" = false := by
      unfold pyStartsWith at h ⊢
      exact startsChars_slash_not_http h
    simp [deriveUrl, hf]
  · intro h
    have ht : pyStartsWith href "http" = true := by
      unfold pyStartsWith at h ⊢
      rcases h with h | h
      · have he : "http://".toList = "http".toList ++ [':', '/', '/'] := rfl
        rw [he] at h
        exact startsChars_append _ _ _ h
      · have he : "https://".toList = "http".toList ++ ['s', ':', '/', '/'] := rfl
        rw [he] at h
        exact startsChars_append _ _ _ h
    simp [deriveUrl, ht]

/-- Witness for derive_url_origin_rule: a relative and an absolute href. -/
theorem derive_url_origin_rule_witness :
    deriveUrl "/server/x" = siteOrigin ++ "/server/x" ∧
    deriveUrl "https://mcp.so/server/x" = "https://mcp.so/server/x" :=
  ⟨(derive_url_origin_rule "/server/x").1 (by decide),
    (derive_url_origin_rule "https://mcp.so/server/x").2 (Or.inr (by decide))⟩

/-! ### Claim theorems: anchor selection, script errors, interrupt handling -/

/-- A string containing the segment "/server/" is non-empty. -/
theorem pyContains_server_ne_empty {h : String}
    (hc : pyContains h "/server/" = true) : h ≠ "" := by
  intro he
  subst he
  exact absurd hc (by decide)

/-- C7: an anchor whose href is exactly the listing root path produces
no record, while any anchor whose href contains the item-detail segment
and is not the root path produces one. -/
theorem anchor_root_skip (a : Anchor) :
    (a.href = some "/servers" → anchorRecord a = none) ∧
    (∀ h, a.href = some h → pyContains h "/server/" = true → h ≠ "/servers" →
      anchorRecord a = some (baseRecord a h)) := by
  constructor
  · intro hh
    have hsel : selectAnchor a = false := by
      unfold selectAnchor
      rw [hh]
      decide
    simp [anchorRecord, hsel]
  · intro h hh hcont hne
    have hne0 : h ≠ "" := pyContains_server_ne_empty hcont
    have hsel : selectAnchor a = true := by
      unfold selectAnchor
      rw [hh]
      simp [hcont, hne0]
    unfold anchorRecord
    simp [hsel, hh, hne]

/-- Witness for anchor_root_skip at a concrete anchor. -/
theorem anchor_root_skip_witness :
    anchorRecord ⟨some "/server/acme/tool-a", "Tool A", none⟩ =
      some (baseRecord ⟨some "/server/acme/tool-a", "Tool A", none⟩
        "/server/acme/tool-a") :=
  (anchor_root_skip ⟨some "/server/acme/tool-a", "Tool A", none⟩).2
    "/server/acme/tool-a" rfl (by decide) (by decide)

/-- C8: a script block whose JSON parse fails, or whose expected nested
keys are missing, contributes nothing: extraction of the page returns
exactly what it would return without that block, keeping the
anchor-derived records and every other block contribution. -/
theorem script_failure_isolated (anchors : List Anchor)
    (pre post : List ScriptBlock) (b : ScriptBlock)
    (hb : b = ScriptBlock.parseFail ∨ b = ScriptBlock.parseOk none) :
    extract_servers_from_page ⟨anchors, pre ++ b :: post⟩ =
      extract_servers_from_page ⟨anchors, pre ++ post⟩ := by
  have hcontrib : scriptContribution b = [] := by
    rcases hb with rfl | rfl <;> rfl
  unfold extract_servers_from_page
  simp [hcontrib]

/-- Witness for script_failure_isolated: a failing block ahead of a
healthy one changes nothing. -/
theorem script_failure_isolated_witness :
    extract_servers_from_page
        ⟨[], [ScriptBlock.parseFail,
              ScriptBlock.parseOk (some [mkRec (some "n") none])]⟩ =
      extract_servers_from_page
        ⟨[], [ScriptBlock.parseOk (some [mkRec (some "n") none])]⟩ :=
  script_failure_isolated [] [] [ScriptBlock.parseOk (some [mkRec (some "n") none])]
    ScriptBlock.parseFail (Or.inl rfl)

/-- C10: on an external interrupt the accumulated records are saved to
the distinct fallback file and the process exits with status 0, while a
fatal error exits with status 1 and performs no partial save. -/
theorem interrupt_partial_save (accumulated : List Record) (msg : String) :
    (accumulated ≠ [] →
      (mainHandler RunOutcome.interrupted accumulated).partialSave =
        some (partialOutput, save_data accumulated)) ∧
    (mainHandler RunOutcome.interrupted accumulated).exitCode = 0 ∧
    partialOutput ≠ defaultOutput ∧
    (mainHandler (RunOutcome.failed msg) accumulated).exitCode = 1 ∧
    (mainHandler (RunOutcome.failed msg) accumulated).partialSave = none := by
  refine ⟨?_, ?_, by decide, rfl, rfl⟩
  · intro hne
    have hni : accumulated.isEmpty = false := by
      cases accumulated with
      | nil => exact absurd rfl hne
      | cons x xs => rfl
    simp [mainHandler, hni]
  · cases he : accumulated.isEmpty <;> simp [mainHandler, he]

/-- Witness for interrupt_partial_save at a one-record accumulation. -/
theorem interrupt_partial_save_witness :
    (mainHandler RunOutcome.interrupted [mkRec (some "n") none]).partialSave =
      some (partialOutput, save_data [mkRec (some "n") none]) :=
  (interrupt_partial_save [mkRec (some "n") none] "boom").1 (by decide)
